import Mathlib

/-!
Shallow embedding of trlx/model/accelerate_ilql_model.py (class ILQLModel).

The file embeds, faithfully to the Python source:
  * the configuration fields the class reads (Config);
  * the module-level environment reads and the body of ILQLModel.__init__
    as an event trace (initTrace) together with the optimizer and scheduler
    construction (initOptimizer, initScheduler, initComponents);
  * ILQLModel.tokenize as the record of the call it issues to the tokenizer
    (tokenize), plus a model of the third-party batch tokenizer semantics
    under truncation=True and padding=True (hfBatchEncode);
  * ILQLModel.get_components (get_components);
  * the training loop ILQLModel.learn as an event trace: the loop body is
    stepTrace, the inner batch loop is epochBatches, the epoch loop is
    epochsLoop, and learnTrace is the whole run.  The counter opt_steps is
    threaded exactly as in the source;
  * the logs dictionary assembled in the main-process branch of the
    evaluation pass (evalMainLogs) over a Python-dict model (setKey,
    updateAll), with the gather of per-process sample stacks (vstack,
    evalGather);
  * a mode state machine (Mode, modeStep, modeAfter) tracking
    model.eval() / model.train() calls;
  * an interpreter of the event sequences over fallible external calls
    (runActions) used to state that the class installs no exception
    handler: a failure of any external call is returned unchanged.
-/

/-- Fields of config.train read by the class (project_name, epochs,
batch_size, eval_interval, gen_size, learning_rate_init,
learning_rate_target, lr_ramp_steps, lr_decay_steps). -/
structure TrainConfig where
  project_name : String
  epochs : Nat
  batch_size : Nat
  eval_interval : Nat
  gen_size : Nat
  learning_rate_init : ℚ
  learning_rate_target : ℚ
  lr_ramp_steps : Nat
  lr_decay_steps : Nat
deriving DecidableEq, Repr

/-- Fields of config.method read by the class. -/
structure MethodConfig where
  steps_for_target_q_sync : Nat
deriving DecidableEq, Repr

/-- The configuration object passed to ILQLModel. -/
structure Config where
  train : TrainConfig
  method : MethodConfig
deriving DecidableEq, Repr

/-- Ambient boolean conditions of a run of learn: whether this process is
the accelerator main process, whether a tokenizer was passed to the
constructor, whether a stats_fn is set, and whether the DEBUG environment
variable is set. -/
structure RunFlags where
  isMain : Bool
  hasTokenizer : Bool
  hasStatsFn : Bool
  debugEnv : Bool
deriving DecidableEq, Repr

/-- Observable actions of the body of ILQLModel.learn, in source order:
model.eval(), model.sample on eval batch i (inside torch.no_grad),
accelerator.gather of the stacked samples, the main-process log-dict
writes (stats update, the samples table, the reward entry), the two DEBUG
prints, model.train(), model.loss(batch), accelerator.log(logs),
accelerator.backward, opt.step, opt.zero_grad, scheduler.step, and
model.sync_target_q_heads. -/
inductive Event
  | modelEval
  | sample (batchIdx : Nat)
  | gather
  | recordStats
  | recordSamplesTable
  | printPairs
  | printSamples
  | recordReward
  | modelTrain
  | loss
  | logStats
  | backward
  | optStep
  | optZeroGrad
  | schedulerStep
  | syncTargetQHeads
deriving DecidableEq, Repr

/-- Lines 103-120 of the source, main-process branch of the evaluation
pass, as events: the stats_fn update when stats_fn is set; then the
samples table write and the DEBUG print of decoded pairs when a tokenizer
is present, or the DEBUG print of the raw sample tensors when not; then
the reward entry write. -/
def mainBlockTrace (fl : RunFlags) : List Event :=
  (if fl.hasStatsFn then [Event.recordStats] else [])
    ++ (if fl.hasTokenizer then
          [Event.recordSamplesTable] ++ (if fl.debugEnv then [Event.printPairs] else [])
        else
          (if fl.debugEnv then [Event.printSamples] else []))
    ++ [Event.recordReward]

/-- Lines 86-122 of the source: the evaluation pass executed when
opt_steps is a multiple of eval_interval.  The model is switched to
evaluation mode, each batch of the evaluation dataloader is sampled under
torch.no_grad, the stacked samples are gathered, the main process
assembles the logs, and the model is switched back to training mode. -/
def evalPassTrace (fl : RunFlags) (nEval : Nat) : List Event :=
  [Event.modelEval]
    ++ (List.range nEval).map Event.sample
    ++ [Event.gather]
    ++ (if fl.isMain then mainBlockTrace fl else [])
    ++ [Event.modelTrain]

/-- Lines 130-137 of the source: the optimization tail of one loop
iteration.  backward, opt.step, opt.zero_grad and scheduler.step run
unconditionally; after opt_steps is incremented, the target Q heads are
synchronized when the incremented counter is a multiple of
steps_for_target_q_sync. -/
def optTail (cfg : Config) (opt_steps : Nat) : List Event :=
  [Event.backward, Event.optStep, Event.optZeroGrad, Event.schedulerStep]
    ++ (if (opt_steps + 1) % cfg.method.steps_for_target_q_sync = 0 then
          [Event.syncTargetQHeads]
        else [])

/-- One iteration of the inner loop of learn (lines 85-137), at counter
value opt_steps: the evaluation pass when opt_steps is a multiple of
eval_interval, then model.loss on the training batch, then (under the
same guard) the accelerator.log call, then the optimization tail. -/
def stepTrace (cfg : Config) (fl : RunFlags) (nEval : Nat) (opt_steps : Nat) : List Event :=
  (if opt_steps % cfg.train.eval_interval = 0 then evalPassTrace fl nEval else [])
    ++ [Event.loss]
    ++ (if opt_steps % cfg.train.eval_interval = 0 then [Event.logStats] else [])
    ++ optTail cfg opt_steps

/-- The inner for-batch loop of learn: b remaining batches starting at
counter value opt_steps; the counter increases by one per batch. -/
def epochBatches (cfg : Config) (fl : RunFlags) (nEval : Nat) : Nat → Nat → List Event
  | _, 0 => []
  | opt_steps, b + 1 =>
      stepTrace cfg fl nEval opt_steps ++ epochBatches cfg fl nEval (opt_steps + 1) b

/-- The outer for-epoch loop of learn: e remaining epochs, each running
nTrain batches; opt_steps carries across epochs. -/
def epochsLoop (cfg : Config) (fl : RunFlags) (nTrain nEval : Nat) : Nat → Nat → List Event
  | _, 0 => []
  | opt_steps, e + 1 =>
      epochBatches cfg fl nEval opt_steps nTrain
        ++ epochsLoop cfg fl nTrain nEval (opt_steps + nTrain) e

/-- The whole event trace of ILQLModel.learn with nTrain training batches
per epoch and nEval evaluation batches, starting from opt_steps = 0. -/
def learnTrace (cfg : Config) (fl : RunFlags) (nTrain nEval : Nat) : List Event :=
  epochsLoop cfg fl nTrain nEval 0 cfg.train.epochs

/-- Line 72 of the source: the eos token id passed to
train_store.create_loader is the eos_token_id of the tokenizer when one
was given, and 0 otherwise. -/
def loaderEosTokenId (tokenizerEos : Option Nat) : Nat :=
  match tokenizerEos with
  | some e => e
  | none => 0

/-- A generated sample: one row of token ids. -/
abbrev Sample := List Nat

/-- torch.vstack over the list of per-batch sample tensors collected in
all_samples: concatenation of the rows. -/
def vstack (batches : List (List Sample)) : List Sample :=
  batches.flatten

/-- accelerator.gather of the per-process stacked samples: concatenation
across processes along the batch dimension. -/
def evalGather (perProcess : List (List (List Sample))) : List Sample :=
  (perProcess.map vstack).flatten

/-- Values stored in the logs dictionary: a number (the reward, or a
stat) or the wandb table of decoded samples with their rewards. -/
inductive LogVal
  | num (q : ℚ)
  | table (rows : List (String × ℚ))
deriving DecidableEq, Repr

/-- The logs dictionary as an association list in insertion order. -/
abbrev Logs := List (String × LogVal)

/-- Python dict assignment logs[k] = v: replace in place when the key is
present, append otherwise. -/
def setKey : Logs → String → LogVal → Logs
  | [], k, v => [(k, v)]
  | (k₀, v₀) :: rest, k, v =>
      if k₀ = k then (k₀, v) :: rest else (k₀, v₀) :: setKey rest k v

/-- Python dict.update: assign every pair of upd in order. -/
def updateAll (logs upd : Logs) : Logs :=
  upd.foldl (fun acc kv => setKey acc kv.1 kv.2) logs

/-- Keys of a logs dictionary. -/
def logKeys (logs : Logs) : List String :=
  logs.map Prod.fst

/-- Arithmetic mean of a list of rationals, as computed by
torch.Tensor.mean on a nonempty tensor. -/
def meanQ (l : List ℚ) : ℚ :=
  l.sum / (l.length : ℚ)

/-- Lines 103-120 of the source: the logs assembled on the main process
during an evaluation pass.  rewards is reward_fn applied to the gathered
samples and reward is its mean; the stats_fn result is merged when
stats_fn is set; the samples table (decoded texts zipped with rewards,
first 16 rows) is written when a tokenizer is present; finally the reward
entry is written. -/
def evalMainLogs (logs₀ : Logs) (reward_fn : List Sample → List ℚ)
    (stats_fn : Option (List Sample → Logs))
    (decode : Option (List Sample → List String)) (samples : List Sample) : Logs :=
  let rewards := reward_fn samples
  let reward := meanQ rewards
  let logs₁ :=
    match stats_fn with
    | some f => updateAll logs₀ (f samples)
    | none => logs₀
  let logs₂ :=
    match decode with
    | some dec =>
        setKey logs₁ "samples" (LogVal.table ((List.zip (dec samples) rewards).take 16))
    | none => logs₁
  setKey logs₂ "reward" (LogVal.num reward)

/-- Lines 102-120 of the source: the logs update of the evaluation pass
runs only under accelerator.is_main_process; on other processes the logs
dictionary is untouched. -/
def evalLogsStep (isMain : Bool) (logs₀ : Logs) (reward_fn : List Sample → List ℚ)
    (stats_fn : Option (List Sample → Logs))
    (decode : Option (List Sample → List String)) (samples : List Sample) : Logs :=
  if isMain then evalMainLogs logs₀ reward_fn stats_fn decode samples else logs₀

/-- The state recorded by __init__ for the AdamW optimizer (line 45):
its kind and the initial learning rate. -/
structure OptimizerState where
  kind : String
  lr : ℚ
deriving DecidableEq, Repr

/-- The arguments passed to rampup_decay (lines 46-51): ramp steps, decay
steps, and the final ratio learning_rate_target / learning_rate_init. -/
structure SchedulerState where
  ramp_steps : Nat
  decay_steps : Nat
  final_ratio : ℚ
deriving DecidableEq, Repr

/-- Line 45 of the source: torch.optim.AdamW over the model parameters
with lr = config.train.learning_rate_init. -/
def initOptimizer (cfg : Config) : OptimizerState :=
  { kind := "AdamW", lr := cfg.train.learning_rate_init }

/-- Lines 46-51 of the source: rampup_decay(lr_ramp_steps, lr_decay_steps,
learning_rate_target / learning_rate_init, opt). -/
def initScheduler (cfg : Config) : SchedulerState :=
  { ramp_steps := cfg.train.lr_ramp_steps
    decay_steps := cfg.train.lr_decay_steps
    final_ratio := cfg.train.learning_rate_target / cfg.train.learning_rate_init }

/-- Lines 44-51 of the source: the optimizer and scheduler exist exactly
when train_mode is true. -/
def initComponents (cfg : Config) (train_mode : Bool) :
    Option OptimizerState × Option SchedulerState :=
  if train_mode then (some (initOptimizer cfg), some (initScheduler cfg))
  else (none, none)

/-- Line 30 of the source: self.max_length = config.train.gen_size. -/
def maxLengthOf (cfg : Config) : Nat :=
  cfg.train.gen_size

/-- Observable actions at module import and in ILQLModel.__init__: the
two environment reads (WORLD_SIZE, LOCAL_RANK), the Accelerator
construction, the print of os.environ, the distributed barrier or the
manual seed, the tracker initialization, and the optimizer and scheduler
construction. -/
inductive InitEvent
  | readEnvWorldSize
  | readEnvLocalRank
  | mkAccelerator
  | printEnv
  | barrier (deviceId : Nat)
  | manualSeed (seed : Nat)
  | initTrackers
  | buildOptimizer
  | buildScheduler
deriving DecidableEq, Repr

/-- Distribution-related actions performed by the code of this repository
itself (as opposed to work delegated to the accelerator library): the two
environment reads and the barrier call. -/
def isOwnDistributionPrimitive : InitEvent → Bool
  | InitEvent.readEnvWorldSize => true
  | InitEvent.readEnvLocalRank => true
  | InitEvent.barrier _ => true
  | _ => false

/-- Lines 20-51 of the source: module-level environment reads followed by
the body of __init__.  The barrier runs when WORLD_SIZE exceeds 1,
otherwise the random seed is set to 1000; trackers are initialized on the
main process; the optimizer and scheduler are built in train mode. -/
def initTrace (worldSize localRank : Nat) (isMain train_mode : Bool) : List InitEvent :=
  [InitEvent.readEnvWorldSize, InitEvent.readEnvLocalRank,
   InitEvent.mkAccelerator, InitEvent.printEnv]
    ++ (if 1 < worldSize then [InitEvent.barrier localRank]
        else [InitEvent.manualSeed 1000])
    ++ (if isMain then [InitEvent.initTrackers] else [])
    ++ (if train_mode then [InitEvent.buildOptimizer, InitEvent.buildScheduler] else [])

/-- The record of the single call ILQLModel.tokenize issues to the
tokenizer (lines 53-60): the input strings with bos and eos attached,
max_length, truncation=True, padding=True, return_tensors given as the
string pt. -/
structure TokenizerCall where
  inputs : List String
  max_length : Nat
  truncation : Bool
  padding : Bool
  return_tensors : String
deriving DecidableEq, Repr

/-- Lines 53-60 of the source: tokenize wraps each text as
bos_token + text + eos_token and calls the tokenizer with
max_length = self.max_length, truncation=True, padding=True,
return_tensors given as pt. -/
def tokenize (bos eos : String) (max_len : Nat) (texts : List String) : TokenizerCall :=
  { inputs := texts.map (fun x => bos ++ x ++ eos)
    max_length := max_len
    truncation := true
    padding := true
    return_tensors := "pt" }

/-- Model of the third-party batch tokenizer call with these keyword
arguments: each input is encoded, truncated to max_length when truncation
is set, and padded with padId to the longest row when padding is set. -/
def hfBatchEncode (encode : String → List Nat) (padId : Nat) (c : TokenizerCall) :
    List (List Nat) :=
  let ids := c.inputs.map encode
  let truncated := if c.truncation then ids.map (fun r => r.take c.max_length) else ids
  let width := (truncated.map List.length).foldr max 0
  if c.padding then truncated.map (fun r => r ++ List.replicate (width - r.length) padId)
  else truncated

/-- Symbolic stand-ins for the objects bound in the dictionary returned
by get_components. -/
inductive Component
  | model
  | opt
  | scheduler
deriving DecidableEq, Repr

/-- Lines 62-67 of the source: get_components returns the dictionary with
model, opt and scheduler in train mode, and only model otherwise. -/
def get_components (train_mode : Bool) : List (String × Component) :=
  if train_mode then
    [("model", Component.model), ("opt", Component.opt), ("scheduler", Component.scheduler)]
  else
    [("model", Component.model)]

/-- Training or evaluation mode of the torch module. -/
inductive Mode
  | train
  | eval
deriving DecidableEq, Repr

/-- Effect of one event on the module mode: model.eval() and
model.train() switch it, every other action leaves it unchanged. -/
def modeStep (m : Mode) (e : Event) : Mode :=
  match e with
  | Event.modelEval => Mode.eval
  | Event.modelTrain => Mode.train
  | _ => m

/-- Mode after running a list of events from mode m. -/
def modeAfter (m : Mode) (tr : List Event) : Mode :=
  tr.foldl modeStep m

/-- Decides that every loss event of the list happens while the module is
in training mode, tracking the mode from m. -/
def lossesInTrain (m : Mode) : List Event → Bool
  | [] => true
  | e :: es =>
      (match e, m with
       | Event.loss, Mode.eval => false
       | _, _ => true) && lossesInTrain (modeStep m e) es

/-- Interpreter of an action list over fallible external calls, with no
handler: the first failure is returned unchanged, otherwise the performed
actions are returned. -/
def runActions {α : Type} (ext : α → Except String Unit) : List α → Except String (List α)
  | [] => Except.ok []
  | e :: es =>
      match ext e with
      | Except.error msg => Except.error msg
      | Except.ok _ =>
          match runActions ext es with
          | Except.error msg => Except.error msg
          | Except.ok tr => Except.ok (e :: tr)

/-- The message of the first failing external call of an action list, if
any. -/
def firstFailure {α : Type} (ext : α → Except String Unit) : List α → Option String
  | [] => none
  | e :: es =>
      match ext e with
      | Except.error msg => some msg
      | Except.ok _ => firstFailure ext es

/-- ILQLModel.learn run over fallible external calls. -/
def learnRun (cfg : Config) (fl : RunFlags) (nTrain nEval : Nat)
    (ext : Event → Except String Unit) : Except String (List Event) :=
  runActions ext (learnTrace cfg fl nTrain nEval)

/-- ILQLModel.__init__ (with the module-level reads) run over fallible
external calls. -/
def initRun (worldSize localRank : Nat) (isMain train_mode : Bool)
    (ext : InitEvent → Except String Unit) : Except String (List InitEvent) :=
  runActions ext (initTrace worldSize localRank isMain train_mode)

/-- ILQLModel.tokenize run over a fallible tokenizer call: the method
body is a single external call whose result is returned as is. -/
def tokenizeRun (call : TokenizerCall → Except String (List (List Nat)))
    (bos eos : String) (max_len : Nat) (texts : List String) :
    Except String (List (List Nat)) :=
  call (tokenize bos eos max_len texts)

/-- ILQLModel.get_components performs no external call and cannot fail. -/
def getComponentsRun (train_mode : Bool) : Except String (List (String × Component)) :=
  Except.ok (get_components train_mode)

/-! Helper lemmas about the loop traces. -/

lemma epochBatches_eq (cfg : Config) (fl : RunFlags) (nEval : Nat) :
    ∀ (b s : Nat), epochBatches cfg fl nEval s b
      = (List.range b).flatMap (fun i => stepTrace cfg fl nEval (s + i)) := by
  intro b
  induction b with
  | zero => intro s; simp [epochBatches]
  | succ b ih =>
      intro s
      have h : ∀ i : Nat, s + 1 + i = s + (i + 1) := fun i => by omega
      simp [epochBatches, ih, List.range_succ_eq_map, List.flatMap_cons, List.flatMap_map,
        Nat.succ_eq_add_one, h]

lemma epochsLoop_eq (cfg : Config) (fl : RunFlags) (nTrain nEval : Nat) :
    ∀ (e s : Nat), epochsLoop cfg fl nTrain nEval s e
      = (List.range (e * nTrain)).flatMap (fun i => stepTrace cfg fl nEval (s + i)) := by
  intro e
  induction e with
  | zero => intro s; simp [epochsLoop]
  | succ e ih =>
      intro s
      have hmul : (e + 1) * nTrain = nTrain + e * nTrain := by ring
      have h : ∀ i : Nat, s + nTrain + i = s + (nTrain + i) := fun i => by omega
      simp [epochsLoop, ih, epochBatches_eq, hmul, List.range_add, List.flatMap_append,
        List.flatMap_map, h]

/-- The whole learn trace is the concatenation, over the global step count
n from 0 to epochs * nTrain, of the body trace at counter value n. -/
lemma learnTrace_eq (cfg : Config) (fl : RunFlags) (nTrain nEval : Nat) :
    learnTrace cfg fl nTrain nEval
      = (List.range (cfg.train.epochs * nTrain)).flatMap (stepTrace cfg fl nEval) := by
  simp [learnTrace, epochsLoop_eq]

lemma mem_mainBlockTrace {fl : RunFlags} {e : Event} (h : e ∈ mainBlockTrace fl) :
    e = Event.recordStats ∨ e = Event.recordSamplesTable ∨ e = Event.printPairs
      ∨ e = Event.printSamples ∨ e = Event.recordReward := by
  simp only [mainBlockTrace, List.mem_append] at h
  split_ifs at h <;> simp_all <;> tauto

lemma mem_evalPassTrace {fl : RunFlags} {nEval : Nat} {e : Event}
    (h : e ∈ evalPassTrace fl nEval) :
    e = Event.modelEval ∨ (∃ i, e = Event.sample i) ∨ e = Event.gather
      ∨ e = Event.recordStats ∨ e = Event.recordSamplesTable ∨ e = Event.printPairs
      ∨ e = Event.printSamples ∨ e = Event.recordReward ∨ e = Event.modelTrain := by
  simp only [evalPassTrace, List.mem_append, List.mem_singleton, List.mem_map] at h
  rcases h with ((((h | h) | h) | h) | h)
  · tauto
  · rcases h with ⟨i, _, hi⟩; exact Or.inr (Or.inl ⟨i, hi.symm⟩)
  · tauto
  · split_ifs at h
    · rcases mem_mainBlockTrace h with h | h | h | h | h <;> tauto
    · exact absurd h (List.not_mem_nil e)
  · tauto

lemma mem_optTail {cfg : Config} {n : Nat} {e : Event} (h : e ∈ optTail cfg n) :
    e = Event.backward ∨ e = Event.optStep ∨ e = Event.optZeroGrad
      ∨ e = Event.schedulerStep ∨ e = Event.syncTargetQHeads := by
  simp only [optTail, List.mem_append] at h
  split_ifs at h <;> simp_all <;> tauto

lemma loss_not_mem_evalPass (fl : RunFlags) (nEval : Nat) :
    Event.loss ∉ evalPassTrace fl nEval := by
  intro h
  rcases mem_evalPassTrace h with h | ⟨i, h⟩ | h | h | h | h | h | h | h <;> simp_all

lemma sync_not_mem_evalPass (fl : RunFlags) (nEval : Nat) :
    Event.syncTargetQHeads ∉ evalPassTrace fl nEval := by
  intro h
  rcases mem_evalPassTrace h with h | ⟨i, h⟩ | h | h | h | h | h | h | h <;> simp_all

lemma schedulerStep_not_mem_evalPass (fl : RunFlags) (nEval : Nat) :
    Event.schedulerStep ∉ evalPassTrace fl nEval := by
  intro h
  rcases mem_evalPassTrace h with h | ⟨i, h⟩ | h | h | h | h | h | h | h <;> simp_all

lemma optStep_not_mem_evalPass (fl : RunFlags) (nEval : Nat) :
    Event.optStep ∉ evalPassTrace fl nEval := by
  intro h
  rcases mem_evalPassTrace h with h | ⟨i, h⟩ | h | h | h | h | h | h | h <;> simp_all

lemma modelEval_not_mem_optTail (cfg : Config) (n : Nat) :
    Event.modelEval ∉ optTail cfg n := by
  intro h
  rcases mem_optTail h with h | h | h | h | h <;> simp_all

lemma gather_not_mem_optTail (cfg : Config) (n : Nat) :
    Event.gather ∉ optTail cfg n := by
  intro h
  rcases mem_optTail h with h | h | h | h | h <;> simp_all

/-- Decomposition of the loop body on a step where the evaluation guard
holds. -/
lemma stepTrace_eval {cfg : Config} (fl : RunFlags) (nEval : Nat) {n : Nat}
    (h : n % cfg.train.eval_interval = 0) :
    stepTrace cfg fl nEval n
      = evalPassTrace fl nEval ++ Event.loss :: Event.logStats :: optTail cfg n := by
  simp [stepTrace, h]

/-- Decomposition of the loop body on a step where the evaluation guard
fails. -/
lemma stepTrace_noeval {cfg : Config} (fl : RunFlags) (nEval : Nat) {n : Nat}
    (h : ¬ n % cfg.train.eval_interval = 0) :
    stepTrace cfg fl nEval n = Event.loss :: optTail cfg n := by
  simp [stepTrace, h]

lemma modelEval_mem_evalPass (fl : RunFlags) (nEval : Nat) :
    Event.modelEval ∈ evalPassTrace fl nEval := by
  simp [evalPassTrace]

lemma gather_mem_evalPass (fl : RunFlags) (nEval : Nat) :
    Event.gather ∈ evalPassTrace fl nEval := by
  simp [evalPassTrace]

lemma sample_mem_evalPass (fl : RunFlags) {nEval i : Nat} (h : i < nEval) :
    Event.sample i ∈ evalPassTrace fl nEval := by
  simp only [evalPassTrace, List.mem_append, List.mem_map]
  exact Or.inl (Or.inl (Or.inl (Or.inr ⟨i, by simpa using h, rfl⟩)))

/-- The model is switched to evaluation mode on a step exactly when the
evaluation guard holds. -/
lemma modelEval_mem_stepTrace_iff (cfg : Config) (fl : RunFlags) (nEval n : Nat) :
    Event.modelEval ∈ stepTrace cfg fl nEval n ↔ n % cfg.train.eval_interval = 0 := by
  by_cases h : n % cfg.train.eval_interval = 0
  · simp only [h, iff_true, stepTrace_eval fl nEval h, List.mem_append]
    exact Or.inl (modelEval_mem_evalPass fl nEval)
  · simp only [h, iff_false, stepTrace_noeval fl nEval h]
    intro hc
    rcases List.mem_cons.mp hc with hc | hc
    · cases hc
    · exact modelEval_not_mem_optTail cfg n hc

/-- The gather runs on a step exactly when the evaluation guard holds. -/
lemma gather_mem_stepTrace_iff (cfg : Config) (fl : RunFlags) (nEval n : Nat) :
    Event.gather ∈ stepTrace cfg fl nEval n ↔ n % cfg.train.eval_interval = 0 := by
  by_cases h : n % cfg.train.eval_interval = 0
  · simp only [h, iff_true, stepTrace_eval fl nEval h, List.mem_append]
    exact Or.inl (gather_mem_evalPass fl nEval)
  · simp only [h, iff_false, stepTrace_noeval fl nEval h]
    intro hc
    rcases List.mem_cons.mp hc with hc | hc
    · cases hc
    · exact gather_not_mem_optTail cfg n hc

/-! Counting lemmas. -/

lemma count_sync_optTail (cfg : Config) (n : Nat) :
    List.count Event.syncTargetQHeads (optTail cfg n)
      = if (n + 1) % cfg.method.steps_for_target_q_sync = 0 then 1 else 0 := by
  simp only [optTail, List.count_append]
  split_ifs <;> rfl

lemma count_schedulerStep_optTail (cfg : Config) (n : Nat) :
    List.count Event.schedulerStep (optTail cfg n) = 1 := by
  simp only [optTail, List.count_append]
  split_ifs <;> rfl

lemma count_optStep_optTail (cfg : Config) (n : Nat) :
    List.count Event.optStep (optTail cfg n) = 1 := by
  simp only [optTail, List.count_append]
  split_ifs <;> rfl

lemma count_sync_stepTrace (cfg : Config) (fl : RunFlags) (nEval n : Nat) :
    List.count Event.syncTargetQHeads (stepTrace cfg fl nEval n)
      = if (n + 1) % cfg.method.steps_for_target_q_sync = 0 then 1 else 0 := by
  have h1 : List.count Event.syncTargetQHeads (evalPassTrace fl nEval) = 0 :=
    List.count_eq_zero.mpr (sync_not_mem_evalPass fl nEval)
  simp only [stepTrace, List.count_append, count_sync_optTail]
  split_ifs <;> simp [h1, List.count_cons]

lemma count_schedulerStep_stepTrace (cfg : Config) (fl : RunFlags) (nEval n : Nat) :
    List.count Event.schedulerStep (stepTrace cfg fl nEval n) = 1 := by
  have h1 : List.count Event.schedulerStep (evalPassTrace fl nEval) = 0 :=
    List.count_eq_zero.mpr (schedulerStep_not_mem_evalPass fl nEval)
  simp only [stepTrace, List.count_append, count_schedulerStep_optTail]
  split_ifs <;> simp [h1, List.count_cons]

lemma count_optStep_stepTrace (cfg : Config) (fl : RunFlags) (nEval n : Nat) :
    List.count Event.optStep (stepTrace cfg fl nEval n) = 1 := by
  have h1 : List.count Event.optStep (evalPassTrace fl nEval) = 0 :=
    List.count_eq_zero.mpr (optStep_not_mem_evalPass fl nEval)
  simp only [stepTrace, List.count_append, count_optStep_optTail]
  split_ifs <;> simp [h1, List.count_cons]

lemma sum_map_ite {p : Nat → Prop} [DecidablePred p] :
    ∀ l : List Nat, (l.map (fun n => if p n then 1 else 0)).sum
      = l.countP (fun n => decide (p n)) := by
  intro l
  induction l with
  | nil => rfl
  | cons a l ih =>
      simp only [List.map_cons, List.sum_cons, List.countP_cons, ih]
      by_cases h : p a <;> simp [h, Nat.add_comm]

lemma count_sync_learnTrace (cfg : Config) (fl : RunFlags) (nTrain nEval : Nat) :
    List.count Event.syncTargetQHeads (learnTrace cfg fl nTrain nEval)
      = (List.range (cfg.train.epochs * nTrain)).countP
          (fun n => decide ((n + 1) % cfg.method.steps_for_target_q_sync = 0)) := by
  rw [learnTrace_eq, List.count_flatMap, ← sum_map_ite]
  congr 1
  exact List.map_congr_left fun n _ => count_sync_stepTrace cfg fl nEval n

lemma count_schedulerStep_learnTrace (cfg : Config) (fl : RunFlags) (nTrain nEval : Nat) :
    List.count Event.schedulerStep (learnTrace cfg fl nTrain nEval)
      = cfg.train.epochs * nTrain := by
  rw [learnTrace_eq, List.count_flatMap]
  have h : (List.range (cfg.train.epochs * nTrain)).map
        (List.count Event.schedulerStep ∘ stepTrace cfg fl nEval)
      = (List.range (cfg.train.epochs * nTrain)).map (fun _ => 1) :=
    List.map_congr_left fun n _ => count_schedulerStep_stepTrace cfg fl nEval n
  simp [h, List.map_const']

lemma count_optStep_learnTrace (cfg : Config) (fl : RunFlags) (nTrain nEval : Nat) :
    List.count Event.optStep (learnTrace cfg fl nTrain nEval)
      = cfg.train.epochs * nTrain := by
  rw [learnTrace_eq, List.count_flatMap]
  have h : (List.range (cfg.train.epochs * nTrain)).map
        (List.count Event.optStep ∘ stepTrace cfg fl nEval)
      = (List.range (cfg.train.epochs * nTrain)).map (fun _ => 1) :=
    List.map_congr_left fun n _ => count_optStep_stepTrace cfg fl nEval n
  simp [h, List.map_const']

/-! Mode lemmas. -/

lemma modeAfter_append (m : Mode) (xs ys : List Event) :
    modeAfter m (xs ++ ys) = modeAfter (modeAfter m xs) ys :=
  List.foldl_append modeStep m xs ys

lemma modeAfter_sampleMap (m : Mode) (l : List Nat) :
    modeAfter m (l.map Event.sample) = m := by
  induction l with
  | nil => rfl
  | cons a l ih => simpa [modeAfter, modeStep] using ih

lemma modeAfter_mainBlock (m : Mode) (fl : RunFlags) :
    modeAfter m (mainBlockTrace fl) = m := by
  simp only [mainBlockTrace]
  split_ifs <;> rfl

lemma modeAfter_evalPass (m : Mode) (fl : RunFlags) (nEval : Nat) :
    modeAfter m (evalPassTrace fl nEval) = Mode.train := by
  simp only [evalPassTrace, modeAfter_append]
  rfl

lemma modeAfter_optTail (m : Mode) (cfg : Config) (n : Nat) :
    modeAfter m (optTail cfg n) = m := by
  simp only [optTail]
  split_ifs <;> rfl

lemma modeAfter_stepTrace (cfg : Config) (fl : RunFlags) (nEval n : Nat) :
    modeAfter Mode.train (stepTrace cfg fl nEval n) = Mode.train := by
  by_cases h : n % cfg.train.eval_interval = 0
  · rw [stepTrace_eval fl nEval h, modeAfter_append, modeAfter_evalPass]
    exact modeAfter_optTail Mode.train cfg n
  · rw [stepTrace_noeval fl nEval h]
    exact modeAfter_optTail Mode.train cfg n

/-! Lemmas about the loss-in-training-mode invariant. -/

lemma modeAfter_cons (m : Mode) (e : Event) (es : List Event) :
    modeAfter m (e :: es) = modeAfter (modeStep m e) es := rfl

lemma lossesInTrain_append :
    ∀ (xs : List Event) (m : Mode) (ys : List Event),
      lossesInTrain m (xs ++ ys)
        = (lossesInTrain m xs && lossesInTrain (modeAfter m xs) ys) := by
  intro xs
  induction xs with
  | nil => intro m ys; simp [lossesInTrain, modeAfter]
  | cons e es ih =>
      intro m ys
      simp only [List.cons_append, lossesInTrain, List.append_eq, ih, modeAfter_cons,
        Bool.and_assoc]

lemma lossesInTrain_of_not_mem :
    ∀ (tr : List Event) (m : Mode), Event.loss ∉ tr → lossesInTrain m tr = true := by
  intro tr
  induction tr with
  | nil => intro m _; rfl
  | cons e es ih =>
      intro m h
      rw [List.mem_cons, not_or] at h
      have tail := ih (modeStep m e) h.2
      cases e <;> cases m <;> simp_all [lossesInTrain, modeStep]

lemma loss_not_mem_optTail (cfg : Config) (n : Nat) :
    Event.loss ∉ optTail cfg n := by
  intro h
  rcases mem_optTail h with h | h | h | h | h <;> simp_all

lemma lossesInTrain_stepTrace (cfg : Config) (fl : RunFlags) (nEval n : Nat) :
    lossesInTrain Mode.train (stepTrace cfg fl nEval n) = true := by
  have hopt := loss_not_mem_optTail cfg n
  by_cases h : n % cfg.train.eval_interval = 0
  · rw [stepTrace_eval fl nEval h, lossesInTrain_append,
      lossesInTrain_of_not_mem _ _ (loss_not_mem_evalPass fl nEval), modeAfter_evalPass,
      Bool.true_and]
    show lossesInTrain Mode.train (optTail cfg n) = true
    exact lossesInTrain_of_not_mem _ _ hopt
  · rw [stepTrace_noeval fl nEval h]
    show lossesInTrain Mode.train (optTail cfg n) = true
    exact lossesInTrain_of_not_mem _ _ hopt

lemma lossesInTrain_epochBatches (cfg : Config) (fl : RunFlags) (nEval : Nat) :
    ∀ (b s : Nat),
      lossesInTrain Mode.train (epochBatches cfg fl nEval s b) = true
        ∧ modeAfter Mode.train (epochBatches cfg fl nEval s b) = Mode.train := by
  intro b
  induction b with
  | zero => intro s; exact ⟨rfl, rfl⟩
  | succ b ih =>
      intro s
      constructor
      · simp only [epochBatches, lossesInTrain_append, lossesInTrain_stepTrace,
          modeAfter_stepTrace, Bool.true_and]
        exact (ih (s + 1)).1
      · simp only [epochBatches, modeAfter_append, modeAfter_stepTrace]
        exact (ih (s + 1)).2

lemma lossesInTrain_epochsLoop (cfg : Config) (fl : RunFlags) (nTrain nEval : Nat) :
    ∀ (e s : Nat),
      lossesInTrain Mode.train (epochsLoop cfg fl nTrain nEval s e) = true
        ∧ modeAfter Mode.train (epochsLoop cfg fl nTrain nEval s e) = Mode.train := by
  intro e
  induction e with
  | zero => intro s; exact ⟨rfl, rfl⟩
  | succ e ih =>
      intro s
      constructor
      · simp only [epochsLoop, lossesInTrain_append,
          (lossesInTrain_epochBatches cfg fl nEval nTrain s).1,
          (lossesInTrain_epochBatches cfg fl nEval nTrain s).2, Bool.true_and]
        exact (ih (s + nTrain)).1
      · simp only [epochsLoop, modeAfter_append,
          (lossesInTrain_epochBatches cfg fl nEval nTrain s).2]
        exact (ih (s + nTrain)).2

lemma lossesInTrain_learnTrace (cfg : Config) (fl : RunFlags) (nTrain nEval : Nat) :
    lossesInTrain Mode.train (learnTrace cfg fl nTrain nEval) = true :=
  (lossesInTrain_epochsLoop cfg fl nTrain nEval cfg.train.epochs 0).1

lemma modeAfter_of_lossesInTrain :
    ∀ (pre : List Event) (m : Mode) (post : List Event),
      lossesInTrain m (pre ++ Event.loss :: post) = true → modeAfter m pre = Mode.train := by
  intro pre
  induction pre with
  | nil =>
      intro m post h
      cases m
      · rfl
      · exact absurd h (by simp [lossesInTrain])
  | cons e es ih =>
      intro m post h
      have h2 : lossesInTrain (modeStep m e) (es ++ Event.loss :: post) = true := by
        cases e <;> cases m <;> simp_all [lossesInTrain, modeStep]
      have h3 := ih (modeStep m e) post h2
      simpa [modeAfter_cons] using h3

/-! Lemmas about the fallible-call interpreter. -/

lemma runActions_eq {α : Type} (ext : α → Except String Unit) :
    ∀ tr : List α,
      runActions ext tr
        = (match firstFailure ext tr with
           | some msg => Except.error msg
           | none => Except.ok tr) := by
  intro tr
  induction tr with
  | nil => rfl
  | cons e es ih =>
      simp only [runActions, firstFailure]
      cases h : ext e with
      | error msg => rfl
      | ok u =>
          rw [ih]
          cases h2 : firstFailure ext es <;> simp

/-! Lemmas about the logs dictionary. -/

lemma lookup_setKey (k : String) (v : LogVal) :
    ∀ l : Logs, List.lookup k (setKey l k v) = some v := by
  intro l
  induction l with
  | nil => simp [setKey, List.lookup]
  | cons kv rest ih =>
      obtain ⟨k₀, v₀⟩ := kv
      simp only [setKey]
      split_ifs with h
      · simp [List.lookup, h]
      · have h2 : ¬ k = k₀ := fun hh => h hh.symm
        have hbeq : (k == k₀) = false := beq_eq_false_iff_ne.mpr h2
        simp [List.lookup, hbeq, ih]

lemma mem_logKeys_setKey (a k : String) (v : LogVal) :
    ∀ l : Logs, a ∈ logKeys (setKey l k v) ↔ a ∈ logKeys l ∨ a = k := by
  intro l
  induction l with
  | nil => simp [setKey, logKeys]
  | cons kv rest ih =>
      obtain ⟨k₀, v₀⟩ := kv
      simp only [setKey]
      split_ifs with h
      · subst h
        simp only [logKeys, List.map_cons, List.mem_cons]
        tauto
      · simp only [logKeys, List.map_cons, List.mem_cons] at ih ⊢
        rw [ih]
        tauto

lemma mem_logKeys_updateAll (a : String) :
    ∀ (u l : Logs), a ∈ logKeys (updateAll l u) ↔ a ∈ logKeys l ∨ a ∈ logKeys u := by
  intro u
  induction u with
  | nil => intro l; simp [updateAll, logKeys]
  | cons kv u ih =>
      intro l
      have hstep : updateAll l (kv :: u) = updateAll (setKey l kv.1 kv.2) u := rfl
      rw [hstep, ih, mem_logKeys_setKey]
      simp only [logKeys, List.map_cons, List.mem_cons]
      tauto

lemma lookup_setKey_ne {k k' : String} (v : LogVal) (h : ¬ k = k') :
    ∀ l : Logs, List.lookup k (setKey l k' v) = List.lookup k l := by
  have hbeq : (k == k') = false := beq_eq_false_iff_ne.mpr h
  intro l
  induction l with
  | nil => simp [setKey, List.lookup, hbeq]
  | cons kv rest ih =>
      obtain ⟨k₀, v₀⟩ := kv
      simp only [setKey]
      split_ifs with h0
      · subst h0
        simp [List.lookup, hbeq]
      · simp only [List.lookup, ih]

lemma lookup_updateAll_not_mem {k : String} :
    ∀ (u l : Logs), k ∉ logKeys u → List.lookup k (updateAll l u) = List.lookup k l := by
  intro u
  induction u with
  | nil => intro l _; rfl
  | cons kv u ih =>
      intro l hk
      simp only [logKeys, List.map_cons, List.mem_cons, not_or] at hk
      have hstep : updateAll l (kv :: u) = updateAll (setKey l kv.1 kv.2) u := rfl
      rw [hstep, ih (setKey l kv.1 kv.2) (by simpa [logKeys] using hk.2),
        lookup_setKey_ne kv.2 hk.1]

/-! Lemmas about the padded widths of a tokenized batch. -/

lemma le_foldr_max : ∀ {l : List Nat} {a : Nat}, a ∈ l → a ≤ l.foldr max 0 := by
  intro l
  induction l with
  | nil => intro a h; cases h
  | cons b l ih =>
      intro a h
      rcases List.mem_cons.mp h with h | h
      · subst h
        exact le_max_left _ _
      · exact le_trans (ih h) (le_max_right _ _)

lemma foldr_max_le : ∀ {l : List Nat} {m : Nat}, (∀ a ∈ l, a ≤ m) → l.foldr max 0 ≤ m := by
  intro l
  induction l with
  | nil => intro m _; exact Nat.zero_le m
  | cons b l ih =>
      intro m h
      exact max_le (h b (List.mem_cons_self b l)) (ih fun a ha => h a (List.mem_cons_of_mem b ha))

/-- Every row produced by the modelled batch tokenizer call with
truncation and padding both set has the length of the widest truncated
row. -/
lemma hfBatchEncode_padded_length (encode : String → List Nat) (padId : Nat)
    (c : TokenizerCall) (ht : c.truncation = true) (hp : c.padding = true) :
    ∀ row ∈ hfBatchEncode encode padId c,
      row.length
        = (((c.inputs.map encode).map (fun r => r.take c.max_length)).map List.length).foldr
            max 0 := by
  intro row hrow
  simp only [hfBatchEncode, ht, hp, ite_true] at hrow
  rcases List.mem_map.mp hrow with ⟨r, hr, rfl⟩
  have hrl : r.length
      ∈ ((c.inputs.map encode).map (fun r => r.take c.max_length)).map List.length :=
    List.mem_map_of_mem List.length hr
  have hle := le_foldr_max hrl
  simp only [List.length_append, List.length_replicate]
  omega

/-- Every truncated row has length at most max_length, hence so does the
padding width. -/
lemma hfBatchEncode_width_le (encode : String → List Nat) (c : TokenizerCall) :
    (((c.inputs.map encode).map (fun r => r.take c.max_length)).map List.length).foldr max 0
      ≤ c.max_length := by
  apply foldr_max_le
  intro a ha
  rcases List.mem_map.mp ha with ⟨r, hr, rfl⟩
  rcases List.mem_map.mp hr with ⟨s, _, rfl⟩
  simp [List.length_take]

/-! Concrete values used by the witnesses. -/

/-- A concrete configuration used to instantiate the theorems. -/
def cfgW : Config :=
  { train :=
      { project_name := "p"
        epochs := 1
        batch_size := 1
        eval_interval := 2
        gen_size := 4
        learning_rate_init := 1
        learning_rate_target := 1
        lr_ramp_steps := 1
        lr_decay_steps := 1 }
    method := { steps_for_target_q_sync := 1 } }

/-- Concrete run flags used to instantiate the theorems. -/
def flW : RunFlags :=
  { isMain := true, hasTokenizer := true, hasStatsFn := false, debugEnv := false }

/-- Concrete run flags for a process without a tokenizer, with DEBUG set. -/
def flX : RunFlags :=
  { isMain := true, hasTokenizer := false, hasStatsFn := false, debugEnv := true }

/-- A concrete encoder used to instantiate the tokenizer theorems. -/
def encW : String → List Nat := fun s => List.replicate s.length 7

/-! The claims. -/

/-- C1: in ILQLModel.learn, for every optimizer-step count n starting at
0, the full evaluation pass (switching to evaluation mode, sampling every
batch of the evaluation dataloader without gradients, gathering the
samples, and assembling the evaluation logs) is executed before the
optimization processing of the training batch exactly when n is a
multiple of config.train.eval_interval; the accelerator.log emission
happens under the same guard, between the loss call and the optimizer
update, as the decompositions below make explicit.  In particular
evaluation runs before the very first optimization step of the first
epoch. -/
theorem ilql_learn_eval_scheduling (cfg : Config) (fl : RunFlags) (nTrain nEval : Nat)
    (_hI : 0 < cfg.train.eval_interval) :
    learnTrace cfg fl nTrain nEval
        = (List.range (cfg.train.epochs * nTrain)).flatMap (stepTrace cfg fl nEval)
      ∧ (∀ n, n % cfg.train.eval_interval = 0 →
          stepTrace cfg fl nEval n
            = evalPassTrace fl nEval ++ Event.loss :: Event.logStats :: optTail cfg n)
      ∧ (∀ n, ¬ n % cfg.train.eval_interval = 0 →
          stepTrace cfg fl nEval n = Event.loss :: optTail cfg n)
      ∧ (∀ n, Event.modelEval ∈ stepTrace cfg fl nEval n ↔ n % cfg.train.eval_interval = 0)
      ∧ (∀ n, Event.gather ∈ stepTrace cfg fl nEval n ↔ n % cfg.train.eval_interval = 0)
      ∧ (∀ i, i < nEval → Event.sample i ∈ evalPassTrace fl nEval)
      ∧ (0 < cfg.train.epochs → 0 < nTrain →
          (learnTrace cfg fl nTrain nEval).head? = some Event.modelEval) := by
  refine ⟨learnTrace_eq cfg fl nTrain nEval,
    fun n h => stepTrace_eval fl nEval h,
    fun n h => stepTrace_noeval fl nEval h,
    fun n => modelEval_mem_stepTrace_iff cfg fl nEval n,
    fun n => gather_mem_stepTrace_iff cfg fl nEval n,
    fun i h => sample_mem_evalPass fl h, ?_⟩
  intro he ht
  have hN : 0 < cfg.train.epochs * nTrain := Nat.mul_pos he ht
  obtain ⟨N, hN2⟩ := Nat.exists_eq_succ_of_ne_zero (Nat.pos_iff_ne_zero.mp hN)
  rw [learnTrace_eq, hN2, List.range_succ_eq_map, List.flatMap_cons,
    stepTrace_eval fl nEval (Nat.zero_mod _)]
  rfl

/-- Witness for C1 at a concrete configuration with eval_interval 2, one
epoch, one training batch and one evaluation batch. -/
theorem ilql_learn_eval_scheduling_witness :
    0 < cfgW.train.eval_interval
      ∧ (learnTrace cfgW flW 1 1).head? = some Event.modelEval :=
  ⟨by decide,
   (ilql_learn_eval_scheduling cfgW flW 1 1 (by decide)).2.2.2.2.2.2 (by decide) (by decide)⟩

/-- C2: in ILQLModel.learn, the target Q heads are synchronized exactly
once after every steps_for_target_q_sync optimizer steps: each loop
iteration contains the synchronization exactly when the incremented
counter is a multiple of steps_for_target_q_sync, in which case it
follows opt.step, opt.zero_grad and scheduler.step immediately; it occurs
nowhere else, and the total number of synchronizations over the run
counts exactly those steps. -/
theorem ilql_learn_target_q_sync (cfg : Config) (fl : RunFlags) (nTrain nEval : Nat)
    (_hS : 0 < cfg.method.steps_for_target_q_sync) :
    (∀ n, List.count Event.syncTargetQHeads (stepTrace cfg fl nEval n)
        = if (n + 1) % cfg.method.steps_for_target_q_sync = 0 then 1 else 0)
      ∧ (∀ n, (n + 1) % cfg.method.steps_for_target_q_sync = 0 →
          ∃ pre, stepTrace cfg fl nEval n
              = pre ++ [Event.optStep, Event.optZeroGrad, Event.schedulerStep,
                  Event.syncTargetQHeads]
            ∧ Event.syncTargetQHeads ∉ pre)
      ∧ (∀ n, ¬ (n + 1) % cfg.method.steps_for_target_q_sync = 0 →
          Event.syncTargetQHeads ∉ stepTrace cfg fl nEval n)
      ∧ List.count Event.syncTargetQHeads (learnTrace cfg fl nTrain nEval)
          = (List.range (cfg.train.epochs * nTrain)).countP
              (fun n => decide ((n + 1) % cfg.method.steps_for_target_q_sync = 0)) := by
  refine ⟨count_sync_stepTrace cfg fl nEval, ?_, ?_, count_sync_learnTrace cfg fl nTrain nEval⟩
  · intro n hn
    refine ⟨(if n % cfg.train.eval_interval = 0 then evalPassTrace fl nEval else [])
        ++ Event.loss
          :: ((if n % cfg.train.eval_interval = 0 then [Event.logStats] else [])
            ++ [Event.backward]), ?_, ?_⟩
    · simp [stepTrace, optTail, hn]
    · intro hmem
      rcases List.mem_append.mp hmem with h1 | h2
      · split_ifs at h1
        · exact sync_not_mem_evalPass fl nEval h1
        · exact absurd h1 (List.not_mem_nil _)
      · rcases List.mem_cons.mp h2 with h3 | h4
        · exact Event.noConfusion h3
        · rcases List.mem_append.mp h4 with h5 | h6
          · split_ifs at h5 <;> simp_all
          · simp_all
  · intro n hn
    have h := count_sync_stepTrace cfg fl nEval n
    rw [if_neg hn] at h
    exact List.count_eq_zero.mp h

/-- Witness for C2 at a concrete configuration with
steps_for_target_q_sync 1: the first loop iteration synchronizes once. -/
theorem ilql_learn_target_q_sync_witness :
    0 < cfgW.method.steps_for_target_q_sync
      ∧ List.count Event.syncTargetQHeads (stepTrace cfgW flW 0 0) = 1 := by
  refine ⟨by decide, ?_⟩
  have h := (ilql_learn_target_q_sync cfgW flW 1 0 (by decide)).1 0
  simpa [cfgW] using h

/-- C3: get_components returns the dictionary with exactly the keys
model, opt and scheduler (bound to the model, the optimizer and the
scheduler) in train mode, and exactly the single key model otherwise. -/
theorem ilql_get_components_keys :
    (get_components true).map Prod.fst = ["model", "opt", "scheduler"]
      ∧ (get_components false).map Prod.fst = ["model"]
      ∧ List.lookup "model" (get_components true) = some Component.model
      ∧ List.lookup "opt" (get_components true) = some Component.opt
      ∧ List.lookup "scheduler" (get_components true) = some Component.scheduler
      ∧ List.lookup "model" (get_components false) = some Component.model
      ∧ "opt" ∉ (get_components false).map Prod.fst
      ∧ "scheduler" ∉ (get_components false).map Prod.fst := by
  decide

/-- C4: in train mode __init__ builds an AdamW optimizer with initial
learning rate learning_rate_init, and a rampup_decay schedule
parameterized by lr_ramp_steps, lr_decay_steps and the ratio
learning_rate_target / learning_rate_init; in learn, scheduler.step runs
exactly once per loop iteration, immediately after opt.step and
opt.zero_grad, so over the whole run its invocation count equals the
optimizer-step count. -/
theorem ilql_optimizer_and_scheduler (cfg : Config) (fl : RunFlags) (nTrain nEval : Nat) :
    initComponents cfg true = (some (initOptimizer cfg), some (initScheduler cfg))
      ∧ (initOptimizer cfg).kind = "AdamW"
      ∧ (initOptimizer cfg).lr = cfg.train.learning_rate_init
      ∧ (initScheduler cfg).ramp_steps = cfg.train.lr_ramp_steps
      ∧ (initScheduler cfg).decay_steps = cfg.train.lr_decay_steps
      ∧ (initScheduler cfg).final_ratio
          = cfg.train.learning_rate_target / cfg.train.learning_rate_init
      ∧ (∀ n, List.count Event.schedulerStep (stepTrace cfg fl nEval n) = 1)
      ∧ (∀ n, ∃ pre suf, stepTrace cfg fl nEval n
            = pre ++ [Event.optStep, Event.optZeroGrad, Event.schedulerStep] ++ suf
          ∧ Event.schedulerStep ∉ pre ∧ Event.schedulerStep ∉ suf)
      ∧ List.count Event.schedulerStep (learnTrace cfg fl nTrain nEval)
          = cfg.train.epochs * nTrain
      ∧ List.count Event.optStep (learnTrace cfg fl nTrain nEval)
          = cfg.train.epochs * nTrain := by
  refine ⟨rfl, rfl, rfl, rfl, rfl, rfl, count_schedulerStep_stepTrace cfg fl nEval, ?_,
    count_schedulerStep_learnTrace cfg fl nTrain nEval,
    count_optStep_learnTrace cfg fl nTrain nEval⟩
  intro n
  refine ⟨(if n % cfg.train.eval_interval = 0 then evalPassTrace fl nEval else [])
      ++ Event.loss
        :: ((if n % cfg.train.eval_interval = 0 then [Event.logStats] else [])
          ++ [Event.backward]),
    (if (n + 1) % cfg.method.steps_for_target_q_sync = 0 then [Event.syncTargetQHeads]
      else []), ?_, ?_, ?_⟩
  · simp [stepTrace, optTail]
  · intro hmem
    rcases List.mem_append.mp hmem with h1 | h2
    · split_ifs at h1
      · exact schedulerStep_not_mem_evalPass fl nEval h1
      · exact absurd h1 (List.not_mem_nil _)
    · rcases List.mem_cons.mp h2 with h3 | h4
      · exact Event.noConfusion h3
      · rcases List.mem_append.mp h4 with h5 | h6
        · split_ifs at h5 <;> simp_all
        · simp_all
  · intro hmem
    split_ifs at hmem <;> simp_all

/-- C5: the distribution-related behavior the repository performs itself
in __init__ (with the module-level reads) is exactly the two environment
reads and the barrier call, the latter exactly when the world size
exceeds 1; everything else in the trace is delegation or unrelated. -/
theorem ilql_init_distribution_plumbing (worldSize localRank : Nat)
    (isMain train_mode : Bool) :
    (initTrace worldSize localRank isMain train_mode).filter isOwnDistributionPrimitive
        = [InitEvent.readEnvWorldSize, InitEvent.readEnvLocalRank]
          ++ (if 1 < worldSize then [InitEvent.barrier localRank] else [])
      ∧ (InitEvent.barrier localRank ∈ initTrace worldSize localRank isMain train_mode
          ↔ 1 < worldSize) := by
  constructor
  · simp only [initTrace, List.filter_append]
    split_ifs <;> simp [isOwnDistributionPrimitive]
  · by_cases h : 1 < worldSize <;>
      cases isMain <;> cases train_mode <;>
        simp [initTrace, h, isOwnDistributionPrimitive]

/-- C6: no operation of ILQLModel defines its own error taxonomy or
catches exceptions: run over fallible external calls, learn and __init__
return the first external failure unchanged (and the performed actions
otherwise), tokenize returns the result of its single tokenizer call as
is, and get_components performs no external call and never fails. -/
theorem ilql_failures_propagate (cfg : Config) (fl : RunFlags) (nTrain nEval : Nat)
    (ext : Event → Except String Unit)
    (worldSize localRank : Nat) (isMain train_mode : Bool)
    (extI : InitEvent → Except String Unit)
    (call : TokenizerCall → Except String (List (List Nat)))
    (bos eos : String) (max_len : Nat) (texts : List String) (tm : Bool) :
    learnRun cfg fl nTrain nEval ext
        = (match firstFailure ext (learnTrace cfg fl nTrain nEval) with
           | some msg => Except.error msg
           | none => Except.ok (learnTrace cfg fl nTrain nEval))
      ∧ initRun worldSize localRank isMain train_mode extI
          = (match firstFailure extI (initTrace worldSize localRank isMain train_mode) with
             | some msg => Except.error msg
             | none => Except.ok (initTrace worldSize localRank isMain train_mode))
      ∧ tokenizeRun call bos eos max_len texts = call (tokenize bos eos max_len texts)
      ∧ getComponentsRun tm = Except.ok (get_components tm) :=
  ⟨runActions_eq ext _, runActions_eq extI _, rfl, rfl⟩

/-- C7: during an evaluation pass the per-process sample batches are
stacked and gathered by concatenation, and on the main process the value
logged under the reward key is the arithmetic mean of reward_fn applied
to the gathered samples; on non-main processes the logs are untouched,
and the reward entry survives the later merge of the training-batch
stats whenever those stats do not themselves use the reward key. -/
theorem ilql_eval_reward_mean (logs₀ : Logs) (reward_fn : List Sample → List ℚ)
    (stats_fn : Option (List Sample → Logs)) (decode : Option (List Sample → List String))
    (perProcess : List (List (List Sample))) :
    evalGather perProcess = (perProcess.map vstack).flatten
      ∧ List.lookup "reward"
            (evalMainLogs logs₀ reward_fn stats_fn decode (evalGather perProcess))
          = some (LogVal.num (meanQ (reward_fn (evalGather perProcess))))
      ∧ evalLogsStep true logs₀ reward_fn stats_fn decode (evalGather perProcess)
          = evalMainLogs logs₀ reward_fn stats_fn decode (evalGather perProcess)
      ∧ evalLogsStep false logs₀ reward_fn stats_fn decode (evalGather perProcess)
          = logs₀
      ∧ (∀ stats : Logs, "reward" ∉ logKeys stats →
          List.lookup "reward"
              (updateAll (evalMainLogs logs₀ reward_fn stats_fn decode (evalGather perProcess))
                stats)
            = some (LogVal.num (meanQ (reward_fn (evalGather perProcess))))) := by
  have hl : List.lookup "reward"
      (evalMainLogs logs₀ reward_fn stats_fn decode (evalGather perProcess))
      = some (LogVal.num (meanQ (reward_fn (evalGather perProcess)))) := by
    simp only [evalMainLogs]
    exact lookup_setKey _ _ _
  refine ⟨rfl, hl, rfl, rfl, ?_⟩
  intro stats hstats
  rw [lookup_updateAll_not_mem stats _ hstats]
  exact hl

/-- Witness for C7 with one process, one reward, and a training-stats
dictionary holding a loss entry. -/
theorem ilql_eval_reward_mean_witness :
    List.lookup "reward"
        (updateAll (evalMainLogs [] (fun _ => [1]) none none (evalGather []))
          [("loss", LogVal.num 0)])
      = some (LogVal.num (meanQ ((fun _ : List Sample => [(1 : ℚ)]) (evalGather [])))) :=
  (ilql_eval_reward_mean [] (fun _ => [1]) none none []).2.2.2.2
    [("loss", LogVal.num 0)] (by decide)

/-- C8: tokenize issues one tokenizer call whose inputs are the texts
with bos prepended and eos appended, with max_length equal to
config.train.gen_size, truncation and padding requested, and tensors in
pt format; under the modelled batch tokenizer semantics every returned
row has length at most gen_size and all rows have equal (padded)
length. -/
theorem ilql_tokenize_call (cfg : Config) (bos eos : String) (texts : List String)
    (encode : String → List Nat) (padId : Nat) :
    (tokenize bos eos (maxLengthOf cfg) texts).inputs
        = texts.map (fun x => bos ++ x ++ eos)
      ∧ (tokenize bos eos (maxLengthOf cfg) texts).max_length = cfg.train.gen_size
      ∧ (tokenize bos eos (maxLengthOf cfg) texts).truncation = true
      ∧ (tokenize bos eos (maxLengthOf cfg) texts).padding = true
      ∧ (tokenize bos eos (maxLengthOf cfg) texts).return_tensors = "pt"
      ∧ (∀ row ∈ hfBatchEncode encode padId (tokenize bos eos (maxLengthOf cfg) texts),
          row.length ≤ cfg.train.gen_size)
      ∧ (∀ r₁ ∈ hfBatchEncode encode padId (tokenize bos eos (maxLengthOf cfg) texts),
          ∀ r₂ ∈ hfBatchEncode encode padId (tokenize bos eos (maxLengthOf cfg) texts),
          r₁.length = r₂.length) := by
  refine ⟨rfl, rfl, rfl, rfl, rfl, ?_, ?_⟩
  · intro row hrow
    have h := hfBatchEncode_padded_length encode padId
      (tokenize bos eos (maxLengthOf cfg) texts) rfl rfl row hrow
    rw [h]
    exact hfBatchEncode_width_le encode (tokenize bos eos (maxLengthOf cfg) texts)
  · intro r₁ h₁ r₂ h₂
    rw [hfBatchEncode_padded_length encode padId
        (tokenize bos eos (maxLengthOf cfg) texts) rfl rfl r₁ h₁,
      hfBatchEncode_padded_length encode padId
        (tokenize bos eos (maxLengthOf cfg) texts) rfl rfl r₂ h₂]

/-- Witness for C8 on a concrete batch: two texts, a length-encoding
tokenizer, gen_size 4; the padded first row is in the output and obeys
the length bound. -/
theorem ilql_tokenize_call_witness :
    [7, 7, 7, 0] ∈ hfBatchEncode encW 0 (tokenize "a" "b" (maxLengthOf cfgW) ["x", "yy"])
      ∧ [7, 7, 7, 0].length ≤ cfgW.train.gen_size :=
  ⟨by decide,
   (ilql_tokenize_call cfgW "a" "b" ["x", "yy"] encW 0).2.2.2.2.2.1 [7, 7, 7, 0] (by decide)⟩

/-- C9: in every run of the training loop, whenever model.loss is about
to be evaluated the module is in training mode: any split of the learn
trace at a loss event has the mode state machine in training mode at the
split point. -/
theorem ilql_loss_in_train_mode (cfg : Config) (fl : RunFlags) (nTrain nEval : Nat)
    (pre post : List Event)
    (h : learnTrace cfg fl nTrain nEval = pre ++ Event.loss :: post) :
    modeAfter Mode.train pre = Mode.train := by
  apply modeAfter_of_lossesInTrain pre Mode.train post
  rw [← h]
  exact lossesInTrain_learnTrace cfg fl nTrain nEval

/-- Witness for C9 on a concrete run with one epoch, one training batch
and one evaluation batch. -/
theorem ilql_loss_in_train_mode_witness :
    learnTrace cfgW flW 1 1
        = [Event.modelEval, Event.sample 0, Event.gather, Event.recordSamplesTable,
            Event.recordReward, Event.modelTrain]
          ++ Event.loss
            :: [Event.logStats, Event.backward, Event.optStep, Event.optZeroGrad,
                Event.schedulerStep, Event.syncTargetQHeads]
      ∧ modeAfter Mode.train
          [Event.modelEval, Event.sample 0, Event.gather, Event.recordSamplesTable,
            Event.recordReward, Event.modelTrain] = Mode.train :=
  ⟨by decide,
   ilql_loss_in_train_mode cfgW flW 1 1
     [Event.modelEval, Event.sample 0, Event.gather, Event.recordSamplesTable,
       Event.recordReward, Event.modelTrain]
     [Event.logStats, Event.backward, Event.optStep, Event.optZeroGrad,
       Event.schedulerStep, Event.syncTargetQHeads] (by decide)⟩

/-- C10: when no tokenizer was given, the training dataloader is created
with eos token id 0; the evaluation pass writes no samples table (its key
never appears in the logs, given it is not supplied from outside), the
samples-table event does not occur in the trace, and the raw sample
tensors are printed exactly when the process is main and DEBUG is set. -/
theorem ilql_no_tokenizer_behavior (logs₀ : Logs) (reward_fn : List Sample → List ℚ)
    (stats_fn : Option (List Sample → Logs)) (samples : List Sample)
    (fl : RunFlags) (nEval : Nat)
    (h₀ : "samples" ∉ logKeys logs₀)
    (hs : ∀ f, stats_fn = some f → "samples" ∉ logKeys (f samples))
    (hTok : fl.hasTokenizer = false) :
    loaderEosTokenId none = 0
      ∧ "samples" ∉ logKeys (evalMainLogs logs₀ reward_fn stats_fn none samples)
      ∧ Event.recordSamplesTable ∉ evalPassTrace fl nEval
      ∧ (Event.printSamples ∈ evalPassTrace fl nEval
          ↔ fl.isMain = true ∧ fl.debugEnv = true) := by
  refine ⟨rfl, ?_, ?_, ?_⟩
  · intro hmem
    simp only [evalMainLogs] at hmem
    rw [mem_logKeys_setKey] at hmem
    rcases hmem with hmem | hmem
    · cases hst : stats_fn with
      | none => rw [hst] at hmem; exact h₀ hmem
      | some f =>
          rw [hst] at hmem
          rw [mem_logKeys_updateAll] at hmem
          rcases hmem with hmem | hmem
          · exact h₀ hmem
          · exact hs f hst hmem
    · exact absurd hmem (by decide)
  · intro hmem
    clear h₀ hs
    obtain ⟨im, htk, hstf, hdb⟩ := fl
    have htk0 : htk = false := hTok
    subst htk0
    cases im <;> cases hstf <;> cases hdb <;>
      simp [evalPassTrace, mainBlockTrace] at hmem
  · clear h₀ hs
    obtain ⟨im, htk, hstf, hdb⟩ := fl
    have htk0 : htk = false := hTok
    subst htk0
    cases im <;> cases hstf <;> cases hdb <;>
      simp [evalPassTrace, mainBlockTrace]

/-- Witness for C10 with empty logs, no stats_fn, a main process without
a tokenizer and DEBUG set. -/
theorem ilql_no_tokenizer_behavior_witness :
    "samples" ∉ logKeys (evalMainLogs [] (fun _ => []) none none [])
      ∧ Event.printSamples ∈ evalPassTrace flX 0 :=
  ⟨(ilql_no_tokenizer_behavior [] (fun _ => []) none [] flX 0 (by decide)
      (fun f hf => Option.noConfusion hf) rfl).2.1,
   (ilql_no_tokenizer_behavior [] (fun _ => []) none [] flX 0 (by decide)
      (fun f hf => Option.noConfusion hf) rfl).2.2.2.mpr ⟨rfl, rfl⟩⟩
